import Mathlib

/-
  Verification of the mdbook-code-table preprocessor core (src/table.rs).

  Rust strings are modelled as `List Char`; byte indices (`str::len`,
  `str::split_at`, `str::find`) are modelled through the UTF-8 byte size of
  each character, so that boundary panics of `split_at` are observable.
  Fallible computations (Rust panics) are modelled with `PResult`.
-/

namespace CodeTablesModel

/-- Models the result of Rust code that can panic: `panic` is an aborted
computation, `ok a` a normal return. -/
inductive PResult (α : Type) where
  | panic : PResult α
  | ok : α → PResult α
deriving DecidableEq, Repr

/-- Models a Rust `String` / `&str` as its sequence of characters. -/
abbrev Str := List Char

/-- Models the UTF-8 encoded byte size of one character (Rust `char::len_utf8`). -/
def charBytes (c : Char) : Nat :=
  if c.toNat < 0x80 then 1
  else if c.toNat < 0x800 then 2
  else if c.toNat < 0x10000 then 3
  else 4

/-- Models Rust `str::len`: the number of UTF-8 bytes of the string. -/
def byteLen (s : Str) : Nat := (s.map charBytes).sum

/-- Models Rust `str::split_at mid` with `mid` a byte index: `none` models the
panic raised when `mid` is out of bounds or not on a character boundary. -/
def splitAtByte : Str → Nat → Option (Str × Str)
  | s, 0 => some ([], s)
  | [], _ + 1 => none
  | c :: cs, n + 1 =>
    if charBytes c ≤ n + 1 then
      (splitAtByte cs (n + 1 - charBytes c)).map (fun p => (c :: p.1, p.2))
    else none

/-- Models stripping one trailing carriage return, as Rust `str::lines` does
on every line terminated by a newline. -/
def stripCr (l : Str) : Str :=
  match l.getLast? with
  | some c => if c = '\r' then l.dropLast else l
  | none => l

/-- Helper for `rustLines`: `acc` holds the characters of the current line in
reverse order. -/
def linesAux : Str → Str → List Str
  | [], acc => if acc = [] then [] else [acc.reverse]
  | c :: rest, acc =>
    if c = '\n' then stripCr acc.reverse :: linesAux rest []
    else linesAux rest (c :: acc)

/-- Models Rust `str::lines`: split at newlines, strip a trailing `\r` of each
terminated line, and do not yield a final empty line. -/
def rustLines (s : Str) : List Str := linesAux s []

/-- Models Rust `str::trim` (whitespace removed from both ends). -/
def rustTrim (s : Str) : Str :=
  ((s.dropWhile Char.isWhitespace).reverse.dropWhile Char.isWhitespace).reverse

/-- Models Rust `str::find(pat)` up to units: the character index of the first
occurrence of `pat` as a contiguous substring, if any. -/
def findSubChar (pat : Str) : Str → Option Nat
  | [] => if pat = [] then some 0 else none
  | c :: cs => if pat <+: (c :: cs) then some 0 else (findSubChar pat cs).map (· + 1)

/-- Models Rust `str::find(pat)`: the byte index of the first occurrence. -/
def rustFind (pat s : Str) : Option Nat :=
  (findSubChar pat s).map (fun i => byteLen (s.take i))

/-- Models Rust `str::find('\n')`: the byte offset of the first newline. -/
def findNlByte : Str → Option Nat
  | [] => none
  | c :: cs => if c = '\n' then some 0 else (findNlByte cs).map (· + charBytes c)

/-- Models the `RowType` enum of src/table.rs. -/
inductive RowType where
  | Headings
  | Alignments
  | TextEntry
  | CodeEntry
  | Empty
deriving DecidableEq, Repr

/-- Models the `TableRow` struct of src/table.rs. -/
structure TableRow where
  contents : List Str
  row_types : List RowType
deriving DecidableEq, Repr

/-- Models the `CodeTable` struct of src/table.rs. -/
structure CodeTable where
  rows : List TableRow
deriving DecidableEq, Repr

/-- The backtick character, the inline-code delimiter tested by the cell
classifier. -/
def backquote : Char := Char.ofNat 96

/-- Models the per-cell classification of the non-first-row branch of
`CodeTables::get_table_row`: alignment shape, then code delimiters, then
emptiness, then plain text. -/
def classify (e : Str) : RowType :=
  if '-' ∈ e ∧ ¬ (' ' ∈ e) then .Alignments
  else if backquote ∈ e ∧ (e.splitOn backquote).length > 1 then .CodeEntry
  else if e = [] then .Empty
  else .TextEntry

/-- Models `CodeTables::get_table_row`: split the line on pipes, trim every
fragment, and classify (first row: every cell `Headings`). -/
def get_table_row (s : Str) (is_first : Bool) : TableRow :=
  let entries := (s.splitOn '|').map rustTrim
  let types :=
    if is_first then List.replicate entries.length RowType.Headings
    else entries.map classify
  ⟨entries, types⟩

/-- Helper modelling the line-accumulation loop of
`CodeTables::get_table_metadata`: take lines while they contain a pipe, stop
at the first line without one. -/
def tlAux : List Str → List Str
  | [] => []
  | l :: ls => if '|' ∈ l then l :: tlAux ls else []

/-- The accumulated table lines of an input, as collected by the loop in
`CodeTables::get_table_metadata`. -/
def tableLines (s : Str) : List Str := tlAux (rustLines s)

/-- Models `CodeTables::get_table_metadata`: accumulate pipe-containing lines,
return `none` when there are none, otherwise build the table and the consumed
byte length (sum of line byte lengths, extended by `find('\n')` on the
remainder, `unwrap_or(0)`).  The `split_at(section_size)` call can panic on a
non-boundary byte index, hence the `PResult`. -/
def get_table_metadata (s : Str) : PResult (Option (CodeTable × Nat)) :=
  match tableLines s with
  | [] => .ok none
  | first :: rest =>
    let size1 := byteLen first + (rest.map byteLen).sum
    let rows := get_table_row first true :: rest.map (fun l => get_table_row l false)
    match splitAtByte s size1 with
    | none => .panic
    | some (_, after) => .ok (some (⟨rows⟩, size1 + (findNlByte after).getD 0))

/-- Models the per-cell rendering match of `TableRow::get_as_html`.  Note the
asymmetric closing tag of the `CodeEntry` arm, taken verbatim from the source. -/
def renderCell (e : Str) : RowType → Str
  | .Alignments => []
  | .Empty => []
  | .Headings => "<th>".toList ++ e ++ "</th>".toList
  | .CodeEntry => "<td><pre>".toList ++ e ++ "</pre><td>".toList
  | .TextEntry => "<td>".toList ++ e ++ "</td>".toList

/-- Models the cell loop of `TableRow::get_as_html`: the loop indexes
`row_types[index]` for every index of `contents`, panicking when `row_types`
is shorter. -/
def rowCellsHtml : List Str → List RowType → PResult Str
  | [], _ => .ok []
  | _ :: _, [] => .panic
  | c :: cs, t :: ts =>
    match rowCellsHtml cs ts with
    | .panic => .panic
    | .ok rest => .ok (renderCell c t ++ rest)

/-- Models `TableRow::get_as_html`. -/
def rowHtml (r : TableRow) : PResult Str :=
  match rowCellsHtml r.contents r.row_types with
  | .panic => .panic
  | .ok s => .ok ("<tr>".toList ++ s ++ "</tr>".toList)

/-- Concatenated rendering of a list of rows, propagating panics. -/
def rowsHtml : List TableRow → PResult Str
  | [] => .ok []
  | r :: rs =>
    match rowHtml r, rowsHtml rs with
    | .panic, _ => .panic
    | _, .panic => .panic
    | .ok h, .ok t => .ok (h ++ t)

/-- Models the `row_types.contains(&RowType::Headings)` test used by the row
filters of `CodeTable::get_as_html`. -/
def hasHeading (r : TableRow) : Bool := decide (RowType.Headings ∈ r.row_types)

/-- The exact format string of `CodeTable::get_as_html` (raw string literal of
src/table.rs lines 170-175, tabs and spaces included). -/
def fmtTable (heading dataRows : Str) : Str :=
  "<table>\n\t\t\t\t<thead>\n\t\t\t\t\t".toList ++ heading ++
    "\n\t\t\t\t</thead>\n\t\t\t\t".toList ++ dataRows ++
    "\n\t\t\t  </table>".toList

/-- Models `CodeTable::get_as_html`: data rows are the rows whose types do not
contain `Headings`, heading rows the rest; both are rendered and spliced into
the format string. -/
def tableHtml (t : CodeTable) : PResult Str :=
  match rowsHtml (t.rows.filter (fun r => ! hasHeading r)),
        rowsHtml (t.rows.filter hasHeading) with
  | .panic, _ => .panic
  | _, .panic => .panic
  | .ok dataRows, .ok heading => .ok (fmtTable heading dataRows)

/-- Models the constant `CodeTables::CODE_ANNOTATION` (the literal marker). -/
def codeMarker : Str := "@code".toList

/-- Models the constant `CodeTables::MAX_LOOP_STEPS`. -/
def MAX_LOOP_STEPS : Nat := 2048

/-- Models the bounded scan loop of `CodeTables::parse_chapter_contents`:
`fuel` counts the remaining iterations of `for _ in 0..MAX_LOOP_STEPS`,
`buffer` the remaining input, `content` the accumulated output.  When the
fuel runs out the loop falls through and only `content` is returned. -/
def scanLoop : Nat → Str → Str → PResult Str
  | 0, _, content => .ok content
  | fuel + 1, buffer, content =>
    if buffer = [] then .ok content
    else
      match rustFind codeMarker buffer with
      | none => .ok (content ++ buffer)
      | some idx =>
        match splitAtByte buffer idx with
        | none => .panic
        | some (clear, parse) =>
          if codeMarker <+: parse then
            let validStr := parse.drop codeMarker.length
            match get_table_metadata validStr with
            | .panic => .panic
            | .ok none => scanLoop fuel validStr (content ++ clear)
            | .ok (some (meta, offset)) =>
              match splitAtByte validStr offset with
              | .none => .panic
              | .some (_, rest) =>
                match tableHtml meta with
                | .panic => .panic
                | .ok html => scanLoop fuel rest (content ++ clear ++ html)
          else
            match splitAtByte parse codeMarker.length with
            | none => .panic
            | some (_, rest) => scanLoop fuel rest (content ++ clear)

/-- The body transformation performed by `CodeTables::parse_chapter_contents`
on the chapter content. -/
def parseBody (content : Str) : PResult Str := scanLoop MAX_LOOP_STEPS content []

/-- Models the fields of mdbook `Chapter` that the claims are about (name,
content, path, parent chain). -/
structure Chapter where
  name : Str
  content : Str
  path : Option Str
  parent_names : List Str
deriving DecidableEq, Repr

/-- Models mdbook `Chapter::new(name, content, path, parent_names)`: it stores
`path: Some(path.into())` and the other given fields. -/
def Chapter.new (name : Str) (content : Str) (path : Str) (parents : List Str) : Chapter :=
  ⟨name, content, some path, parents⟩

/-- Models `CodeTables::parse_chapter_contents`: transform the body and rebuild
the chapter through `Chapter::new`, passing `chapter.path.clone().unwrap_or_default()`
for the path. -/
def parse_chapter_contents (ch : Chapter) : PResult Chapter :=
  match parseBody ch.content with
  | .panic => .panic
  | .ok c => .ok (Chapter.new ch.name c (ch.path.getD []) ch.parent_names)

/-- The first line of a string under the Rust `lines` decomposition (empty
default when there are no lines). -/
def firstLine (s : Str) : Str := (rustLines s).headD []

/-- Boolean substring test, used to point at fragments of a produced output. -/
def containsSub (pat s : Str) : Bool := (findSubChar pat s).isSome

/-- The marker literal repeated `n` times, the adversarial input of the
termination property. -/
def repM : Nat → Str
  | 0 => []
  | n + 1 => codeMarker ++ repM n

/-- Plain trailing text used to exhibit input lost at the iteration cap. -/
def hwTail : Str := "hello world".toList

/-- The table produced by the code for the input `|a|` followed by a newline. -/
def tblA : CodeTable :=
  ⟨[⟨[[], ['a'], []], [.Headings, .Headings, .Headings]⟩]⟩

/-- The table produced by the code for the input `|a|` newline `|b|`. -/
def tblB : CodeTable :=
  ⟨[⟨[[], ['a'], []], [.Headings, .Headings, .Headings]⟩,
    ⟨[[], ['b'], []], [.Empty, .TextEntry, .Empty]⟩]⟩

/-- The end-to-end example input of the spec (section 8). -/
def c4Input : Str :=
  "before @code| a | b |\n|---|---|\n| `x` | y |\nafter".toList

/-- The output the code actually produces for `c4Input`. -/
def c4Output : Str :=
  ("before <table>\n\t\t\t\t<thead>\n\t\t\t\t\t<tr><th></th><th>a</th><th>b</th><th></th></tr>"
    ++ "\n\t\t\t\t</thead>\n\t\t\t\t<tr></tr><tr><td><pre>`x`</pre><td><td>y</td></tr>"
    ++ "\n\t\t\t  </table>\nafter").toList

theorem charBytes_pos (c : Char) : 0 < charBytes c := by
  unfold charBytes; split_ifs <;> norm_num

theorem byteLen_nil : byteLen [] = 0 := rfl

theorem byteLen_cons (c : Char) (s : Str) :
    byteLen (c :: s) = charBytes c + byteLen s := by
  simp [byteLen]

theorem byteLen_append (a b : Str) : byteLen (a ++ b) = byteLen a + byteLen b := by
  simp [byteLen]

theorem byteLen_reverse (s : Str) : byteLen s.reverse = byteLen s := by
  simp [byteLen, List.sum_reverse]

theorem splitAtByte_byteLen_take (s : Str) (n : Nat) :
    splitAtByte s (byteLen (s.take n)) = some (s.take n, s.drop n) := by
  induction s generalizing n with
  | nil => simp [splitAtByte, byteLen]
  | cons c cs ih =>
    cases n with
    | zero => simp [splitAtByte, byteLen]
    | succ m =>
      rw [List.take_succ_cons, byteLen_cons]
      have hc := charBytes_pos c
      obtain ⟨k, hk⟩ : ∃ k, charBytes c + byteLen ((cs.take m)) = k + 1 :=
        ⟨charBytes c + byteLen (cs.take m) - 1, by omega⟩
      rw [hk]
      have hle : charBytes c ≤ k + 1 := by omega
      simp only [splitAtByte, if_pos hle]
      have hsub : k + 1 - charBytes c = byteLen (cs.take m) := by omega
      rw [hsub, ih m]
      simp

theorem splitAtByte_sound {s : Str} {n : Nat} {a b : Str}
    (h : splitAtByte s n = some (a, b)) : s = a ++ b ∧ byteLen a = n := by
  induction s generalizing n a b with
  | nil =>
    cases n with
    | zero =>
      simp only [splitAtByte, Option.some.injEq, Prod.mk.injEq] at h
      obtain ⟨h1, h2⟩ := h; subst h1; subst h2; simp [byteLen]
    | succ m => simp [splitAtByte] at h
  | cons c cs ih =>
    cases n with
    | zero =>
      simp only [splitAtByte, Option.some.injEq, Prod.mk.injEq] at h
      obtain ⟨h1, h2⟩ := h; subst h1; subst h2; simp [byteLen]
    | succ m =>
      simp only [splitAtByte] at h
      split at h
      · cases hrec : splitAtByte cs (m + 1 - charBytes c) with
        | none => rw [hrec] at h; simp at h
        | some p =>
          rw [hrec] at h
          simp only [Option.map_some', Option.some.injEq] at h
          obtain ⟨pa, pb⟩ := p
          have := ih hrec
          cases h
          constructor
          · simp [this.1]
          · rw [byteLen_cons, this.2]; omega
      · simp at h

theorem findSubChar_isPre {pat s : Str} {i : Nat}
    (h : findSubChar pat s = some i) : pat <+: s.drop i := by
  induction s generalizing i with
  | nil =>
    simp only [findSubChar] at h
    split at h
    · rename_i hp
      cases h; simp [hp]
    · simp at h
  | cons c cs ih =>
    simp only [findSubChar] at h
    split at h
    · cases h; simpa
    · cases hrec : findSubChar pat cs with
      | none => rw [hrec] at h; simp at h
      | some j =>
        rw [hrec] at h
        simp only [Option.map_some', Option.some.injEq] at h
        subst h
        simpa using ih hrec

theorem byteLen_dropLast_le (s : Str) : byteLen s.dropLast ≤ byteLen s := by
  induction s with
  | nil => simp
  | cons c cs ih =>
    cases cs with
    | nil => simp [byteLen]
    | cons d ds =>
      rw [List.dropLast_cons₂, byteLen_cons, byteLen_cons]
      omega

theorem byteLen_stripCr_le (l : Str) : byteLen (stripCr l) ≤ byteLen l := by
  unfold stripCr
  cases l.getLast? with
  | none => exact le_refl _
  | some c =>
    by_cases h : c = '\r'
    · simp only [h, if_pos rfl]
      exact byteLen_dropLast_le l
    · simp only [if_neg h]
      exact le_refl _

theorem linesAux_byteLen_le (s : Str) :
    ∀ acc, (((linesAux s acc).map byteLen).sum ≤ byteLen s + byteLen acc) := by
  induction s with
  | nil =>
    intro acc
    by_cases h : acc = []
    · simp [linesAux, h]
    · simp only [linesAux, if_neg h, List.map_cons, List.map_nil, List.sum_cons,
        List.sum_nil, byteLen_nil, byteLen_reverse]
      omega
  | cons c rest ih =>
    intro acc
    by_cases h : c = '\n'
    · simp only [linesAux, if_pos h, List.map_cons, List.sum_cons]
      have h1 : byteLen (stripCr acc.reverse) ≤ byteLen acc := by
        calc byteLen (stripCr acc.reverse) ≤ byteLen acc.reverse := byteLen_stripCr_le _
        _ = byteLen acc := byteLen_reverse _
      have h2 := ih []
      rw [byteLen_cons]
      simp only [byteLen_nil] at h2
      omega
    · simp only [linesAux, if_neg h]
      have h2 := ih (c :: acc)
      rw [byteLen_cons] at h2
      rw [byteLen_cons]
      omega

theorem tlAux_byteLen_le (ls : List Str) :
    ((tlAux ls).map byteLen).sum ≤ (ls.map byteLen).sum := by
  induction ls with
  | nil => simp [tlAux]
  | cons l ls ih =>
    by_cases h : '|' ∈ l
    · simp only [tlAux, if_pos h, List.map_cons, List.sum_cons]
      omega
    · simp only [tlAux, if_neg h, List.map_nil, List.sum_nil, List.map_cons,
        List.sum_cons]
      omega

theorem tableLines_byteLen_le (s : Str) :
    ((tableLines s).map byteLen).sum ≤ byteLen s := by
  unfold tableLines
  calc ((tlAux (rustLines s)).map byteLen).sum
      ≤ ((rustLines s).map byteLen).sum := tlAux_byteLen_le _
    _ ≤ byteLen s + byteLen [] := linesAux_byteLen_le s []
    _ = byteLen s := by simp [byteLen]

theorem byteLen_ascii {s : Str} (h : ∀ c ∈ s, charBytes c = 1) :
    byteLen s = s.length := by
  induction s with
  | nil => simp [byteLen]
  | cons c cs ih =>
    rw [byteLen_cons, h c (by simp), ih (fun d hd => h d (by simp [hd]))]
    simp [Nat.add_comm]

theorem splitAtByte_ascii {s : Str} (h : ∀ c ∈ s, charBytes c = 1) {n : Nat}
    (hn : n ≤ s.length) : splitAtByte s n = some (s.take n, s.drop n) := by
  have htake : byteLen (s.take n) = n := by
    rw [byteLen_ascii (fun c hc => h c (List.take_subset n s hc))]
    simp [List.length_take]
    omega
  have hgen := splitAtByte_byteLen_take s n
  rw [htake] at hgen
  exact hgen

theorem linesAux_no_nl {s : Str} (h : ∀ c ∈ s, c ≠ '\n') :
    ∀ acc, linesAux s acc =
      if acc.reverse ++ s = [] then [] else [acc.reverse ++ s] := by
  induction s with
  | nil =>
    intro acc
    simp only [linesAux, List.append_nil]
    by_cases ha : acc = []
    · simp [ha]
    · rw [if_neg ha, if_neg (by simpa using ha)]
  | cons c rest ih =>
    intro acc
    have hc : c ≠ '\n' := h c (by simp)
    simp only [linesAux, if_neg hc]
    rw [ih (fun d hd => h d (by simp [hd])) (c :: acc)]
    have : (c :: acc).reverse ++ rest = acc.reverse ++ (c :: rest) := by
      simp
    rw [this]

theorem rustLines_no_nl {s : Str} (h : ∀ c ∈ s, c ≠ '\n') (hne : s ≠ []) :
    rustLines s = [s] := by
  unfold rustLines
  rw [linesAux_no_nl h []]
  simp [hne]

theorem tableLines_nil_of_no_pipe {s : Str} (h : ¬ '|' ∈ firstLine s) :
    tableLines s = [] := by
  unfold tableLines
  unfold firstLine at h
  cases hl : rustLines s with
  | nil => simp [tlAux]
  | cons l ls =>
    rw [hl] at h
    simp only [List.headD_cons] at h
    simp [tlAux, h]

theorem gtm_none_of_tableLines_nil {s : Str} (h : tableLines s = []) :
    get_table_metadata s = .ok none := by
  unfold get_table_metadata
  rw [h]

theorem codeMarker_ne_nil : codeMarker ≠ [] := by decide

theorem scan_step_no_table (f : Nat) (buf cont : Str) (i : Nat)
    (hf : findSubChar codeMarker buf = some i)
    (hp : ¬ '|' ∈ firstLine (buf.drop (i + codeMarker.length))) :
    scanLoop (f + 1) buf cont =
      scanLoop f (buf.drop (i + codeMarker.length)) (cont ++ buf.take i) := by
  have hpre : codeMarker <+: buf.drop i := findSubChar_isPre hf
  have hbuf : buf ≠ [] := by
    intro hb
    rw [hb] at hf
    simp only [findSubChar, if_neg codeMarker_ne_nil] at hf
    exact Option.noConfusion hf
  have hfind : rustFind codeMarker buf = some (byteLen (buf.take i)) := by
    unfold rustFind
    rw [hf]
    rfl
  have hsplit : splitAtByte buf (byteLen (buf.take i)) = some (buf.take i, buf.drop i) :=
    splitAtByte_byteLen_take buf i
  have hdrop : (buf.drop i).drop codeMarker.length = buf.drop (i + codeMarker.length) := by
    rw [List.drop_drop, Nat.add_comm]
  have hgtm : get_table_metadata (buf.drop (i + codeMarker.length)) = .ok none :=
    gtm_none_of_tableLines_nil (tableLines_nil_of_no_pipe hp)
  simp only [scanLoop, if_neg hbuf, hfind, hsplit, if_pos hpre, hdrop, hgtm]

theorem findSubChar_self_append {p rest : Str} (hp : p ≠ []) :
    findSubChar p (p ++ rest) = some 0 := by
  cases p with
  | nil => exact absurd rfl hp
  | cons a as =>
    have : (a :: as) ++ rest = a :: (as ++ rest) := rfl
    rw [this]
    simp only [findSubChar]
    rw [if_pos]
    exact ⟨rest, rfl⟩

theorem mem_repM {c : Char} : ∀ {n : Nat}, c ∈ repM n → c ∈ codeMarker
  | 0, h => by simp [repM] at h
  | n + 1, h => by
    simp only [repM, List.mem_append] at h
    cases h with
    | inl h => exact h
    | inr h => exact mem_repM h

theorem repM_tail_flat {tail : Str} (ht : ∀ c ∈ tail, c ≠ '\n' ∧ c ≠ '|')
    (m : Nat) : ∀ c ∈ repM m ++ tail, c ≠ '\n' ∧ c ≠ '|' := by
  intro c hc
  rw [List.mem_append] at hc
  cases hc with
  | inl h =>
    have hall : ∀ d ∈ codeMarker, d ≠ '\n' ∧ d ≠ '|' := by decide
    exact hall c (mem_repM h)
  | inr h => exact ht c h

theorem no_pipe_firstLine {s : Str} (hs : ∀ c ∈ s, c ≠ '\n' ∧ c ≠ '|') :
    ¬ '|' ∈ firstLine s := by
  by_cases hne : s = []
  · subst hne
    simp [firstLine, rustLines, linesAux]
  · have : rustLines s = [s] := rustLines_no_nl (fun c hc => (hs c hc).1) hne
    unfold firstLine
    rw [this]
    simp only [List.headD_cons]
    intro hmem
    exact (hs '|' hmem).2 rfl

theorem scan_repM (tail : Str) (ht : ∀ c ∈ tail, c ≠ '\n' ∧ c ≠ '|') :
    ∀ (j k : Nat) (cont : Str), scanLoop j (repM (j + k) ++ tail) cont = .ok cont := by
  intro j
  induction j with
  | zero => intro k cont; rfl
  | succ m ih =>
    intro k cont
    have hrw : repM (m + 1 + k) ++ tail = codeMarker ++ (repM (m + k) ++ tail) := by
      have : m + 1 + k = (m + k) + 1 := by omega
      rw [this]
      simp [repM, List.append_assoc]
    rw [hrw]
    have hfind : findSubChar codeMarker (codeMarker ++ (repM (m + k) ++ tail)) = some 0 :=
      findSubChar_self_append codeMarker_ne_nil
    have hstep := scan_step_no_table m (codeMarker ++ (repM (m + k) ++ tail)) cont 0
      hfind
      (by
        rw [Nat.zero_add, List.drop_left]
        exact no_pipe_firstLine (repM_tail_flat ht (m + k)))
    rw [Nat.zero_add, List.drop_left] at hstep
    rw [hstep]
    simp only [List.take_zero, List.append_nil]
    exact ih k cont

theorem gtm_some_inv {s : Str} {t : CodeTable} {n : Nat}
    (h : get_table_metadata s = .ok (some (t, n))) :
    ∃ first rest pre after,
      tableLines s = first :: rest ∧
      t = ⟨get_table_row first true :: rest.map (fun l => get_table_row l false)⟩ ∧
      splitAtByte s (byteLen first + (rest.map byteLen).sum) = some (pre, after) ∧
      n = byteLen first + (rest.map byteLen).sum + (findNlByte after).getD 0 := by
  unfold get_table_metadata at h
  cases htl : tableLines s with
  | nil =>
    rw [htl] at h
    exact absurd h (by simp)
  | cons first rest =>
    rw [htl] at h
    simp only at h
    cases hsp : splitAtByte s (byteLen first + (rest.map byteLen).sum) with
    | none =>
      rw [hsp] at h
      exact absurd h (by simp)
    | some p =>
      obtain ⟨pre, after⟩ := p
      rw [hsp] at h
      simp only [PResult.ok.injEq, Option.some.injEq, Prod.mk.injEq] at h
      obtain ⟨ht, hn⟩ := h
      exact ⟨first, rest, pre, after, rfl, ht.symm, hsp, hn.symm⟩

theorem classify_ne_headings (e : Str) : classify e ≠ RowType.Headings := by
  unfold classify
  split_ifs <;> simp

theorem get_table_row_first (l : Str) :
    get_table_row l true =
      ⟨(l.splitOn '|').map rustTrim,
        List.replicate ((l.splitOn '|').map rustTrim).length RowType.Headings⟩ := rfl

theorem get_table_row_data (l : Str) :
    get_table_row l false =
      ⟨(l.splitOn '|').map rustTrim, ((l.splitOn '|').map rustTrim).map classify⟩ := rfl

theorem rowCellsHtml_replicate_headings (cs : List Str) :
    rowCellsHtml cs (List.replicate cs.length RowType.Headings) =
      .ok ((cs.map (fun c => "<th>".toList ++ c ++ "</th>".toList)).flatten) := by
  induction cs with
  | nil => rfl
  | cons c cs ih =>
    simp only [List.length_cons, List.replicate_succ, rowCellsHtml, ih,
      List.map_cons, List.flatten]
    rfl

theorem rowHtml_first (l : Str) :
    rowHtml (get_table_row l true) =
      .ok ("<tr>".toList ++
        (((l.splitOn '|').map rustTrim).map
          (fun c => "<th>".toList ++ c ++ "</th>".toList)).flatten ++ "</tr>".toList) := by
  rw [get_table_row_first]
  simp only [rowHtml, rowCellsHtml_replicate_headings]

/-- Claim C2: the spec asserts that no panic can originate from the
table-parsing logic for any input, including multi-byte UTF-8.  The code
violates this: for the body fragment starting with a pipe line, a newline and
a second pipe line ending in a two-byte character, the accumulated
`section_size` (sum of line byte lengths, interior newlines not counted)
falls inside the final multi-byte character, so `split_at(section_size)`
panics on a non-character-boundary.  The theorem evaluates the model at the
failing input: both `get_table_metadata` on the post-marker text and the
whole scanner on the body reach the panic. -/
theorem c2_theorem :
    get_table_metadata ("|\n|é".toList) = .panic ∧
    parseBody ("@code|\n|é".toList) = .panic := ⟨rfl, rfl⟩

/-- Claim C7 (confirmed): on any body in which the marker `@code` does not
occur, the scanner returns the input unchanged. -/
theorem c7_theorem (body : Str) (h : findSubChar codeMarker body = none) :
    parseBody body = .ok body := by
  have hfind : rustFind codeMarker body = none := by
    unfold rustFind
    rw [h]
    rfl
  show scanLoop MAX_LOOP_STEPS body [] = .ok body
  have hm : MAX_LOOP_STEPS = 2047 + 1 := rfl
  rw [hm]
  by_cases hb : body = []
  · subst hb; rfl
  · simp only [scanLoop, if_neg hb, hfind, List.nil_append]

/-- Witness for C7 at the marker-free body `hello`. -/
theorem c7_witness :
    findSubChar codeMarker ("hello".toList) = none ∧
    parseBody ("hello".toList) = .ok ("hello".toList) :=
  ⟨by decide, c7_theorem _ (by decide)⟩

/-- Claim C8 (confirmed): when the marker occurs (first occurrence at
character index `i`) and the first line after the marker contains no pipe,
one scanner iteration appends the text before the marker to the output,
drops the marker itself, inserts no HTML, and re-scans the rest of the text
after the marker. -/
theorem c8_theorem (f : Nat) (buf cont : Str) (i : Nat)
    (hf : findSubChar codeMarker buf = some i)
    (hp : ¬ '|' ∈ firstLine (buf.drop (i + codeMarker.length))) :
    scanLoop (f + 1) buf cont =
      scanLoop f (buf.drop (i + codeMarker.length)) (cont ++ buf.take i) :=
  scan_step_no_table f buf cont i hf hp

/-- Witness for C8 at the body `x@codey`. -/
theorem c8_witness :
    findSubChar codeMarker ("x@codey".toList) = some 1 ∧
    ¬ '|' ∈ firstLine (("x@codey".toList).drop (1 + codeMarker.length)) ∧
    scanLoop (2047 + 1) ("x@codey".toList) [] =
      scanLoop 2047 (("x@codey".toList).drop (1 + codeMarker.length))
        ([] ++ ("x@codey".toList).take 1) :=
  ⟨by decide, by decide, c8_theorem 2047 _ [] 1 (by decide) (by decide)⟩

/-- Claim C10 (confirmed): a data-row cell classified `CodeEntry` renders
exactly as the asymmetric literal open-td, pre, raw cell text with its
backtick delimiters retained verbatim, close-pre, open-td. -/
theorem c10_theorem (e : Str) (h : classify e = RowType.CodeEntry) :
    renderCell e (classify e) =
      "<td><pre>".toList ++ e ++ "</pre><td>".toList := by
  rw [h]
  rfl

/-- Witness for C10 at the cell text backtick-x-backtick. -/
theorem c10_witness :
    classify ("`x`".toList) = RowType.CodeEntry ∧
    renderCell ("`x`".toList) (classify ("`x`".toList)) =
      "<td><pre>".toList ++ "`x`".toList ++ "</pre><td>".toList :=
  ⟨by decide, c10_theorem _ (by decide)⟩

/-- Claim C5: the claim states all identity metadata is propagated unchanged.
Counterexample: for a chapter whose path is `None`, the replacement chapter
built through `Chapter::new(…, chapter.path.clone().unwrap_or_default(), …)`
carries path `Some("")`, which differs from the input path. -/
theorem c5_counterexample :
    parse_chapter_contents ⟨"n".toList, "b".toList, none, []⟩ =
      .ok ⟨"n".toList, "b".toList, some [], []⟩ ∧
    (⟨"n".toList, "b".toList, some [], []⟩ : Chapter).path ≠
      (⟨"n".toList, "b".toList, none, []⟩ : Chapter).path :=
  ⟨rfl, by simp⟩

/-- Claim C5 as amended: the name and parent chain always propagate
unchanged, and the path propagates unchanged whenever it is present; only a
missing (`None`) path is replaced by `Some` of the default empty path. -/
theorem c5_theorem (ch : Chapter) (p : Str) (out : Chapter)
    (hp : ch.path = some p) (h : parse_chapter_contents ch = .ok out) :
    out.name = ch.name ∧ out.path = ch.path ∧ out.parent_names = ch.parent_names := by
  unfold parse_chapter_contents at h
  cases hb : parseBody ch.content with
  | panic => rw [hb] at h; exact absurd h (by simp)
  | ok c =>
    rw [hb] at h
    simp only [PResult.ok.injEq] at h
    subst h
    unfold Chapter.new
    simp [hp]

/-- Witness for C5 at a chapter with a present path. -/
theorem c5_witness :
    (⟨"n".toList, "b".toList, some ("p".toList), []⟩ : Chapter).path =
      some ("p".toList) ∧
    parse_chapter_contents ⟨"n".toList, "b".toList, some ("p".toList), []⟩ =
      .ok ⟨"n".toList, "b".toList, some ("p".toList), []⟩ ∧
    ((⟨"n".toList, "b".toList, some ("p".toList), []⟩ : Chapter).name =
        (⟨"n".toList, "b".toList, some ("p".toList), []⟩ : Chapter).name ∧
      (⟨"n".toList, "b".toList, some ("p".toList), []⟩ : Chapter).path =
        (⟨"n".toList, "b".toList, some ("p".toList), []⟩ : Chapter).path ∧
      (⟨"n".toList, "b".toList, some ("p".toList), []⟩ : Chapter).parent_names =
        (⟨"n".toList, "b".toList, some ("p".toList), []⟩ : Chapter).parent_names) :=
  ⟨rfl, rfl,
    c5_theorem ⟨"n".toList, "b".toList, some ("p".toList), []⟩ ("p".toList)
      ⟨"n".toList, "b".toList, some ("p".toList), []⟩ rfl rfl⟩

/-- Claim C6: the claim states that a newline (or whitespace-only line)
between the marker and the table is tolerated.  Counterexample: for input
beginning with a newline followed by pipe lines, the code reports no table,
because the first line (empty) contains no pipe and the accumulation loop
breaks immediately. -/
theorem c6_counterexample :
    get_table_metadata ("\n| a |\n|---|".toList) = .ok none := rfl

/-- Claim C6 as amended: only whitespace on the same line before the first
pipe is tolerated; for every ASCII input whose very first line contains a
pipe, the parser recognizes and returns a table. -/
theorem c6_theorem (s : Str) (hascii : ∀ c ∈ s, charBytes c = 1)
    (hpipe : '|' ∈ firstLine s) :
    ∃ t n, get_table_metadata s = .ok (some (t, n)) := by
  have hl : rustLines s ≠ [] := by
    intro h
    unfold firstLine at hpipe
    rw [h] at hpipe
    simp at hpipe
  obtain ⟨l, ls, hcons⟩ := List.exists_cons_of_ne_nil hl
  have hfl : firstLine s = l := by
    unfold firstLine
    rw [hcons]
    rfl
  rw [hfl] at hpipe
  have htl : tableLines s = l :: tlAux ls := by
    unfold tableLines
    rw [hcons]
    simp [tlAux, hpipe]
  have hle : byteLen l + ((tlAux ls).map byteLen).sum ≤ s.length := by
    have h1 : ((tableLines s).map byteLen).sum =
        byteLen l + ((tlAux ls).map byteLen).sum := by
      rw [htl, List.map_cons, List.sum_cons]
    have h2 := tableLines_byteLen_le s
    rw [byteLen_ascii hascii] at h2
    omega
  have hsp := splitAtByte_ascii hascii hle
  unfold get_table_metadata
  rw [htl]
  simp only [hsp]
  exact ⟨_, _, rfl⟩

/-- Witness for C6 at the ASCII input with leading same-line whitespace. -/
theorem c6_witness :
    (∀ c ∈ (" | a |".toList), charBytes c = 1) ∧
    '|' ∈ firstLine (" | a |".toList) ∧
    ∃ t n, get_table_metadata (" | a |".toList) = .ok (some (t, n)) :=
  ⟨by decide, by decide, c6_theorem _ (by decide) (by decide)⟩

/-- Claim C1: the claim states that on hitting the iteration cap the scanner
returns the accumulated output concatenated with the untouched remainder.
Counterexample: for the body of 2048 markers followed by `hello world`, the
loop spends all 2048 iterations consuming one tableless marker each, reaches
the cap with `hello world` still in the buffer, and returns only the
accumulated output (empty) — the nonempty remainder is discarded, not
appended. -/
theorem c1_counterexample :
    parseBody (repM 2048 ++ hwTail) = .ok [] ∧ hwTail ≠ ([] : Str) := by
  constructor
  · have h := scan_repM hwTail (by decide) 2048 0 []
    simpa [parseBody, MAX_LOOP_STEPS] using h
  · decide

/-- Claim C1 as amended: on exhausting the iteration budget the scanner stops
gracefully (no panic, no infinite loop) and returns exactly the accumulated
output, discarding the untouched remainder of the input; in particular the
full scan of an adversarial body of MAX_LOOP_STEPS + 1 markers terminates
with the empty accumulated output. -/
theorem c1_theorem :
    (∀ (buf cont : Str), scanLoop 0 buf cont = .ok cont) ∧
    parseBody (repM (MAX_LOOP_STEPS + 1)) = .ok [] := by
  constructor
  · intro buf cont
    rfl
  · have h := scan_repM [] (by simp) 2048 1 []
    simpa [parseBody, MAX_LOOP_STEPS] using h

/-- Claim C3: the claim states the consumed length is the sum of the
accumulated line lengths extended by one trailing line terminator when one
exists.  Counterexample: for the single-line table `|a|` followed by a
newline and `x`, the accumulated length is 3 and a terminator immediately
follows, so the claim mandates 4; the code returns 3, because
`find('\n')` on the remainder returns offset 0 — the cursor lands on the
line break, not after it. -/
theorem c3_counterexample :
    get_table_metadata ("|a|\nx".toList) = .ok (some (tblA, 3)) ∧
    (3 : Nat) ≠ 3 + 1 := ⟨rfl, by decide⟩

/-- Claim C3 as amended: for every recognized table the consumed length
equals the byte length of the accumulated-lines span (the prefix whose byte
length is the plain sum of the accumulated lines' byte lengths, interior
terminators not counted) plus the byte distance from that point to the next
line terminator (zero when none follows): the trailing terminator is never
included, and the cursor lands on the first terminator at or after the sum,
which for a multi-line table can be mid-line. -/
theorem c3_theorem (s : Str) (t : CodeTable) (n : Nat)
    (h : get_table_metadata s = .ok (some (t, n))) :
    ∃ pre after, s = pre ++ after ∧
      byteLen pre = ((tableLines s).map byteLen).sum ∧
      n = byteLen pre + (findNlByte after).getD 0 := by
  obtain ⟨first, rest, pre, after, htl, ht, hsp, hn⟩ := gtm_some_inv h
  obtain ⟨hs, hbl⟩ := splitAtByte_sound hsp
  refine ⟨pre, after, hs, ?_, ?_⟩
  · rw [htl, List.map_cons, List.sum_cons, hbl]
  · rw [hn, hbl]

/-- Witness for C3 at the single-line table input. -/
theorem c3_witness :
    get_table_metadata ("|a|\nx".toList) = .ok (some (tblA, 3)) ∧
    ∃ pre after, "|a|\nx".toList = pre ++ after ∧
      byteLen pre = ((tableLines ("|a|\nx".toList)).map byteLen).sum ∧
      3 = byteLen pre + (findNlByte after).getD 0 :=
  ⟨rfl, c3_theorem _ tblA 3 rfl⟩

set_option maxRecDepth 100000

/-- Claim C4: the claim gives the exact expected tag order for the spec's
end-to-end example, with header cells `a`, `b` only and the code cell
rendered as pre-wrapped `x` without backticks.  Counterexample: the code's
output contains empty `<th></th>` header cells (from the empty fragments
produced by the leading and trailing pipes of the header line) and retains
the backtick delimiters inside the pre element, so the claimed tag order and
cell content are wrong. -/
theorem c4_counterexample :
    parseBody c4Input = .ok c4Output ∧
    containsSub ("<th></th>".toList) c4Output = true ∧
    containsSub ("<pre>`x`</pre>".toList) c4Output = true := ⟨rfl, rfl, rfl⟩

/-- Claim C4 as amended: for the spec's end-to-end example the scanner output
is exactly `before ` followed by the table element whose header row is
`<tr><th></th><th>a</th><th>b</th><th></th></tr>` (empty header cells from
the leading and trailing pipes included), whose data rows are
`<tr></tr><tr><td><pre>`x`</pre><td><td>y</td></tr>` (backticks retained,
asymmetric closing td tag), followed by a newline and `after`. -/
theorem c4_theorem : parseBody c4Input = .ok c4Output := rfl

/-- Claim C9 (confirmed): every table returned by `get_table_metadata` has at
least one row, every cell of row 0 is classified `Headings` and row 0
renders as a tr of th elements wrapping the raw cell texts, and no cell of
any later row is ever classified `Headings`. -/
theorem c9_theorem (s : Str) (t : CodeTable) (n : Nat)
    (h : get_table_metadata s = .ok (some (t, n))) :
    t.rows ≠ [] ∧
    (∀ ty ∈ (t.rows.headD ⟨[], []⟩).row_types, ty = RowType.Headings) ∧
    rowHtml (t.rows.headD ⟨[], []⟩) =
      .ok ("<tr>".toList ++
        ((t.rows.headD ⟨[], []⟩).contents.map
          (fun c => "<th>".toList ++ c ++ "</th>".toList)).flatten ++
        "</tr>".toList) ∧
    (∀ r ∈ t.rows.tail, RowType.Headings ∉ r.row_types) := by
  obtain ⟨first, rest, pre, after, htl, ht, hsp, hn⟩ := gtm_some_inv h
  subst ht
  refine ⟨by simp, ?_, ?_, ?_⟩
  · intro ty hty
    simp only [List.headD_cons] at hty
    rw [get_table_row_first] at hty
    exact List.eq_of_mem_replicate hty
  · simp only [List.headD_cons]
    exact rowHtml_first first
  · intro r hr
    simp only [List.tail_cons, List.mem_map] at hr
    obtain ⟨l, _, hl⟩ := hr
    subst hl
    rw [get_table_row_data]
    intro hmem
    simp only [List.mem_map] at hmem
    obtain ⟨e, _, he⟩ := hmem
    exact classify_ne_headings e he

/-- Witness for C9 at a two-line table input. -/
theorem c9_witness :
    get_table_metadata ("|a|\n|b|".toList) = .ok (some (tblB, 6)) ∧
    (tblB.rows ≠ [] ∧
      (∀ ty ∈ (tblB.rows.headD ⟨[], []⟩).row_types, ty = RowType.Headings) ∧
      rowHtml (tblB.rows.headD ⟨[], []⟩) =
        .ok ("<tr>".toList ++
          ((tblB.rows.headD ⟨[], []⟩).contents.map
            (fun c => "<th>".toList ++ c ++ "</th>".toList)).flatten ++
          "</tr>".toList) ∧
      (∀ r ∈ tblB.rows.tail, RowType.Headings ∉ r.row_types)) :=
  ⟨rfl, c9_theorem ("|a|\n|b|".toList) tblB 6 rfl⟩

end CodeTablesModel
